import Mathlib

/-!
# Verification of the tt-csv-matcher core (matching + scoring engine)

Shallow embedding of `src/core/scoring.py` and `src/core/matching.py`.

Conventions of the embedding:
* Python `float` arithmetic on scores is modelled by exact rationals (`ℚ`);
  the similarity primitive (rapidfuzz `JaroWinkler.similarity`, an external
  library) is a parameter `sim : String → String → ℚ`.
* Python's built-in `round(x, 4)` is modelled by exact round-half-to-even.
* Unicode operations (`unicodedata.normalize('NFD', ·)`, the category-`Mn`
  test, `str.upper()`) are modelled table-driven, with the tables holding the
  real Unicode data for the Latin-1 repertoire (the character set the
  matcher's CSV data lives in); characters outside the tables are fixed
  points, as they are in Python for characters with no decomposition and no
  case mapping.
* `dict`-based candidate indices are modelled extensionally as the function
  from a key to the ordered list of reference records with that key.
* The `assert best_result is not None` in `_pick_best_candidate` is modelled
  by an `Option` result (`none` = `AssertionError`); `match_players`
  propagates it through `List.mapM`, so `none` models "an exception escaped
  the resolver".
-/

set_option maxHeartbeats 1000000

namespace TTMatcher

/-! ## Python `round` on exact rationals -/

/-- Round to the nearest integer, ties to even: the semantics of Python's
built-in `round` read over exact rational values. -/
def roundHalfEven (x : ℚ) : ℤ :=
  if x - ⌊x⌋ < 1/2 then ⌊x⌋
  else if 1/2 < x - ⌊x⌋ then ⌊x⌋ + 1
  else if ⌊x⌋ % 2 = 0 then ⌊x⌋ else ⌊x⌋ + 1

/-- Python's `round(x, ndigits)` over exact rational values. -/
def pyRound (x : ℚ) (ndigits : ℕ) : ℚ :=
  (roundHalfEven (x * 10 ^ ndigits) : ℚ) / 10 ^ ndigits

/-! ## Character-level model of the Unicode operations used by the code

`nfdTable` is the canonical (NFD) decomposition of every Latin-1 character
that has one, copied from the Unicode character database; `upperTable` is
Python's `str.upper` character mapping on the same repertoire (ASCII letters
plus the case-mapped Latin-1 characters without a decomposition, including
the one-to-two mapping `ß → SS` and `µ → Μ`, U+039C). -/

/-- Canonical decompositions (NFD) of the Latin-1 characters that have one. -/
def nfdTable : List (Char × List Char) := [
  ('À', ['A', '̀']),
  ('Á', ['A', '́']),
  ('Â', ['A', '̂']),
  ('Ã', ['A', '̃']),
  ('Ä', ['A', '̈']),
  ('Å', ['A', '̊']),
  ('Ç', ['C', '̧']),
  ('È', ['E', '̀']),
  ('É', ['E', '́']),
  ('Ê', ['E', '̂']),
  ('Ë', ['E', '̈']),
  ('Ì', ['I', '̀']),
  ('Í', ['I', '́']),
  ('Î', ['I', '̂']),
  ('Ï', ['I', '̈']),
  ('Ñ', ['N', '̃']),
  ('Ò', ['O', '̀']),
  ('Ó', ['O', '́']),
  ('Ô', ['O', '̂']),
  ('Õ', ['O', '̃']),
  ('Ö', ['O', '̈']),
  ('Ù', ['U', '̀']),
  ('Ú', ['U', '́']),
  ('Û', ['U', '̂']),
  ('Ü', ['U', '̈']),
  ('Ý', ['Y', '́']),
  ('à', ['a', '̀']),
  ('á', ['a', '́']),
  ('â', ['a', '̂']),
  ('ã', ['a', '̃']),
  ('ä', ['a', '̈']),
  ('å', ['a', '̊']),
  ('ç', ['c', '̧']),
  ('è', ['e', '̀']),
  ('é', ['e', '́']),
  ('ê', ['e', '̂']),
  ('ë', ['e', '̈']),
  ('ì', ['i', '̀']),
  ('í', ['i', '́']),
  ('î', ['i', '̂']),
  ('ï', ['i', '̈']),
  ('ñ', ['n', '̃']),
  ('ò', ['o', '̀']),
  ('ó', ['o', '́']),
  ('ô', ['o', '̂']),
  ('õ', ['o', '̃']),
  ('ö', ['o', '̈']),
  ('ù', ['u', '̀']),
  ('ú', ['u', '́']),
  ('û', ['u', '̂']),
  ('ü', ['u', '̈']),
  ('ý', ['y', '́']),
  ('ÿ', ['y', '̈'])]

/-- Per-character NFD: `unicodedata.normalize('NFD', ·)` acts on each
character independently; characters with no canonical decomposition are
returned unchanged. -/
def nfdChar (c : Char) : List Char := (nfdTable.lookup c).getD [c]

/-- `unicodedata.normalize('NFD', s)` on the modelled repertoire. -/
def pyNFD (s : String) : String := ⟨s.data.flatMap nfdChar⟩

/-- `unicodedata.category(c) == 'Mn'` for the modelled repertoire: the
combining diacritical marks block U+0300–U+036F (every mark produced by
`nfdTable` lies in it, and every character of that block is category Mn). -/
def isMn (c : Char) : Bool := 0x300 ≤ c.toNat && c.toNat ≤ 0x36F

/-- Python's `str.upper` character mapping on the modelled repertoire. -/
def upperTable : List (Char × List Char) := [
  ('a', ['A']), ('b', ['B']), ('c', ['C']), ('d', ['D']), ('e', ['E']),
  ('f', ['F']), ('g', ['G']), ('h', ['H']), ('i', ['I']), ('j', ['J']),
  ('k', ['K']), ('l', ['L']), ('m', ['M']), ('n', ['N']), ('o', ['O']),
  ('p', ['P']), ('q', ['Q']), ('r', ['R']), ('s', ['S']), ('t', ['T']),
  ('u', ['U']), ('v', ['V']), ('w', ['W']), ('x', ['X']), ('y', ['Y']),
  ('z', ['Z']),
  ('ß', ['S', 'S']), ('æ', ['Æ']), ('ø', ['Ø']), ('þ', ['Þ']),
  ('ð', ['Ð']), ('µ', ['Μ']),
  ('à', ['À']), ('á', ['Á']), ('â', ['Â']), ('ã', ['Ã']), ('ä', ['Ä']),
  ('å', ['Å']), ('ç', ['Ç']), ('è', ['È']), ('é', ['É']), ('ê', ['Ê']),
  ('ë', ['Ë']), ('ì', ['Ì']), ('í', ['Í']), ('î', ['Î']), ('ï', ['Ï']),
  ('ñ', ['Ñ']), ('ò', ['Ò']), ('ó', ['Ó']), ('ô', ['Ô']), ('õ', ['Õ']),
  ('ö', ['Ö']), ('ù', ['Ù']), ('ú', ['Ú']), ('û', ['Û']), ('ü', ['Ü']),
  ('ý', ['Ý']), ('ÿ', ['Ÿ'])]

/-- Per-character `str.upper`. -/
def upperChar (c : Char) : List Char := (upperTable.lookup c).getD [c]

/-- Python's `s.upper()` on the modelled repertoire. -/
def pyUpper (s : String) : String := ⟨s.data.flatMap upperChar⟩

/-! ## Data model (`src/core/__init__.py`) -/

/-- A player record from a CSV file (`core.Player`). -/
structure Player where
  extern_id : String
  last_name : String
  first_name : String
  sex : String
  association : String
  dob : Int
  mob : Int
  yob : Int
deriving DecidableEq

/-- Result of matching an event player against the reference database
(`core.MatchResult`). -/
structure MatchResult where
  event_player : Player
  ref_player : Option Player
  match_type : String
  confidence : ℚ
  confidence_tolerant : ℚ
  issues : List String
deriving DecidableEq

/-! ## Scoring engine (`src/core/scoring.py`) -/

/-- The component weights (`scoring.WEIGHTS`, a dict from component name to
weight). -/
def WEIGHTS : String → ℚ
  | "lastname" => 0.30
  | "firstname" => 0.25
  | "dob" => 0.10
  | "mob" => 0.10
  | "yob" => 0.15
  | "sex" => 0.05
  | "association" => 0.05
  | _ => 0

/-- `scoring.is_dob_mob_swapped`: day and month of birth are swapped between
event and reference, guarded by `dob != mob`. -/
def is_dob_mob_swapped (event ref : Player) : Bool :=
  event.dob == ref.mob && event.mob == ref.dob
    && event.yob == ref.yob && event.dob != event.mob

/-- `scoring.calculate_confidence`: weighted sum of the seven components,
rounded to 4 decimal places. -/
def calculate_confidence (event ref : Player)
    (lastname_sim firstname_sim : ℚ) : ℚ :=
  let dob_swapped := is_dob_mob_swapped event ref
  let score :=
    WEIGHTS "lastname" * lastname_sim
    + WEIGHTS "firstname" * firstname_sim
    + WEIGHTS "dob" * (if event.dob == ref.dob || dob_swapped then 1.0 else 0.0)
    + WEIGHTS "mob" * (if event.mob == ref.mob || dob_swapped then 1.0 else 0.0)
    + WEIGHTS "yob" * (if event.yob == ref.yob then 1.0 else 0.0)
    + WEIGHTS "sex" * (if pyUpper event.sex == pyUpper ref.sex then 1.0 else 0.0)
    + WEIGHTS "association"
        * (if pyUpper event.association == pyUpper ref.association then 1.0 else 0.0)
  pyRound score 4

/-- The characters removed by `normalize_for_tolerant_comparison`
(space, hyphen, period, comma, semicolon). -/
def removedChars : List Char := [' ', '-', '.', ',', ';']

/-- `scoring.normalize_for_tolerant_comparison`: NFD-decompose, strip the
combining marks (category Mn), remove the punctuation characters, then
uppercase. -/
def normalize_for_tolerant_comparison (text : String) : String :=
  let decomposed := pyNFD text
  let stripped : String := ⟨decomposed.data.filter (fun ch => !(isMn ch))⟩
  let cleaned : String := ⟨stripped.data.filter (fun ch => !(removedChars.contains ch))⟩
  pyUpper cleaned

/-- `scoring.calculate_confidence_tolerant`: the same weighted sum, with the
name similarities replaced by 1.0 when the tolerant-normalized forms agree,
and otherwise by the maximum of the original similarity and the similarity
(`sim`, the external Jaro-Winkler primitive) of the normalized forms. -/
def calculate_confidence_tolerant (sim : String → String → ℚ)
    (event ref : Player) (lastname_sim firstname_sim : ℚ) : ℚ :=
  let norm_event_ln := normalize_for_tolerant_comparison event.last_name
  let norm_ref_ln := normalize_for_tolerant_comparison ref.last_name
  let norm_event_fn := normalize_for_tolerant_comparison event.first_name
  let norm_ref_fn := normalize_for_tolerant_comparison ref.first_name
  let ln_sim_t :=
    if norm_event_ln == norm_ref_ln then 1.0
    else max lastname_sim (sim norm_event_ln norm_ref_ln)
  let fn_sim_t :=
    if norm_event_fn == norm_ref_fn then 1.0
    else max firstname_sim (sim norm_event_fn norm_ref_fn)
  let dob_swapped := is_dob_mob_swapped event ref
  let score :=
    WEIGHTS "lastname" * ln_sim_t
    + WEIGHTS "firstname" * fn_sim_t
    + WEIGHTS "dob" * (if event.dob == ref.dob || dob_swapped then 1.0 else 0.0)
    + WEIGHTS "mob" * (if event.mob == ref.mob || dob_swapped then 1.0 else 0.0)
    + WEIGHTS "yob" * (if event.yob == ref.yob then 1.0 else 0.0)
    + WEIGHTS "sex" * (if pyUpper event.sex == pyUpper ref.sex then 1.0 else 0.0)
    + WEIGHTS "association"
        * (if pyUpper event.association == pyUpper ref.association then 1.0 else 0.0)
  pyRound score 4

/-- `scoring.detect_issues`: the ordered list of issue codes, built exactly
in the source's append order. -/
def detect_issues (event ref : Player) (match_type : String)
    (lastname_sim firstname_sim : ℚ) : List String :=
  (if match_type == "NAME_SWAP" then ["NAME_SWAPPED"] else [])
  ++ (if lastname_sim < 1.0 && match_type == "FUZZY" then ["LASTNAME_FUZZY"] else [])
  ++ (if firstname_sim < 1.0 && match_type == "FUZZY" then ["FIRSTNAME_FUZZY"] else [])
  ++ (if is_dob_mob_swapped event ref then ["DOB_MOB_SWAPPED"]
      else (if event.dob != ref.dob then ["DOB_MISMATCH"] else [])
        ++ (if event.mob != ref.mob then ["MOB_MISMATCH"] else []))
  ++ (if event.yob != ref.yob then ["YOB_MISMATCH"] else [])
  ++ (if pyUpper event.sex != pyUpper ref.sex then ["SEX_MISMATCH"] else [])
  ++ (if pyUpper event.association != pyUpper ref.association
      then ["ASSOC_MISMATCH"] else [])

/-! ## Matching engine (`src/core/matching.py`) -/

/-- `matching.DEFAULT_LASTNAME_THRESHOLD`. -/
def DEFAULT_LASTNAME_THRESHOLD : ℚ := 0.85

/-- `matching.DEFAULT_FIRSTNAME_THRESHOLD`. -/
def DEFAULT_FIRSTNAME_THRESHOLD : ℚ := 0.80

/-- `matching._normalize_key`: `value.strip().upper()`. -/
def normalize_key (value : String) : String := pyUpper value.trim

/-- The (last, first) index key of a player, as used by
`matching._build_name_index`. -/
def nameKey (p : Player) : String × String :=
  (normalize_key p.last_name, normalize_key p.first_name)

/-- The (first, last) index key of a player, as used by
`matching._build_swap_index`. -/
def swapKey (p : Player) : String × String :=
  (normalize_key p.first_name, normalize_key p.last_name)

/-- `matching._build_name_index`, extensionally: the hash index maps a key to
the ordered list of reference players whose (last, first) key equals it, in
reference-file order; an absent key maps to the empty list (the source's
`dict.get` returning `None` and the `if candidates:` truthiness test make an
absent key and an empty list indistinguishable). -/
def build_name_index (players : List Player) (key : String × String) : List Player :=
  players.filter (fun p => nameKey p == key)

/-- `matching._build_swap_index`, extensionally (see `build_name_index`). -/
def build_swap_index (players : List Player) (key : String × String) : List Player :=
  players.filter (fun p => swapKey p == key)

/-- The `MatchResult(...)` literal constructed for a scored candidate inside
`_pick_best_candidate` and `_try_fuzzy_match`. -/
def mk_candidate_result (sim : String → String → ℚ) (event ref : Player)
    (match_type : String) (ln_sim fn_sim : ℚ) : MatchResult :=
  { event_player := event
    ref_player := some ref
    match_type := match_type
    confidence := calculate_confidence event ref ln_sim fn_sim
    confidence_tolerant := calculate_confidence_tolerant sim event ref ln_sim fn_sim
    issues := detect_issues event ref match_type ln_sim fn_sim }

/-- The candidate loop of `matching._pick_best_candidate`: the running state
is `(best_result, best_confidence)`, updated only on a strictly greater
confidence (`confidence > best_confidence`). -/
def pick_best_loop (sim : String → String → ℚ) (event : Player)
    (match_type : String) (lastname_sim firstname_sim : ℚ) :
    List Player → Option MatchResult × ℚ → Option MatchResult × ℚ
  | [], st => st
  | ref :: rest, (best_result, best_confidence) =>
    let ln_sim := if match_type == "NAME_SWAP" then 1.0 else lastname_sim
    let fn_sim := if match_type == "NAME_SWAP" then 1.0 else firstname_sim
    let confidence := calculate_confidence event ref ln_sim fn_sim
    if best_confidence < confidence then
      pick_best_loop sim event match_type lastname_sim firstname_sim rest
        (some (mk_candidate_result sim event ref match_type ln_sim fn_sim), confidence)
    else
      pick_best_loop sim event match_type lastname_sim firstname_sim rest
        (best_result, best_confidence)

/-- `matching._pick_best_candidate`. The initial state is
`(None, -1.0)`; the source ends with `assert best_result is not None`, so a
`none` result models the `AssertionError`. -/
def pick_best_candidate (sim : String → String → ℚ) (event : Player)
    (candidates : List Player) (match_type : String)
    (lastname_sim firstname_sim : ℚ) : Option MatchResult :=
  (pick_best_loop sim event match_type lastname_sim firstname_sim
    candidates (none, -1.0)).1

/-- The reference-scan loop of `matching._try_fuzzy_match`: a candidate is
scored only when both similarities reach their thresholds, and the best is
updated only on a strictly greater confidence. `event_ln`/`event_fn` are the
event's normalized names, hoisted out of the loop as in the source. -/
def try_fuzzy_loop (sim : String → String → ℚ) (event : Player)
    (event_ln event_fn : String) (lastname_threshold firstname_threshold : ℚ) :
    List Player → Option MatchResult × ℚ → Option MatchResult × ℚ
  | [], st => st
  | ref :: rest, (best_result, best_confidence) =>
    let ln_sim := sim event_ln (normalize_key ref.last_name)
    let fn_sim := sim event_fn (normalize_key ref.first_name)
    if lastname_threshold ≤ ln_sim ∧ firstname_threshold ≤ fn_sim then
      let confidence := calculate_confidence event ref ln_sim fn_sim
      if best_confidence < confidence then
        try_fuzzy_loop sim event event_ln event_fn lastname_threshold
          firstname_threshold rest
          (some (mk_candidate_result sim event ref "FUZZY" ln_sim fn_sim), confidence)
      else
        try_fuzzy_loop sim event event_ln event_fn lastname_threshold
          firstname_threshold rest (best_result, best_confidence)
    else
      try_fuzzy_loop sim event event_ln event_fn lastname_threshold
        firstname_threshold rest (best_result, best_confidence)

/-- `matching._try_fuzzy_match`: `none` is the source's `None` ("no fuzzy
match found"), a normal value, not an error. -/
def try_fuzzy_match (sim : String → String → ℚ) (event : Player)
    (ref_players : List Player)
    (lastname_threshold firstname_threshold : ℚ) : Option MatchResult :=
  (try_fuzzy_loop sim event (normalize_key event.last_name)
    (normalize_key event.first_name) lastname_threshold firstname_threshold
    ref_players (none, -1.0)).1

/-- The `MatchResult` built in stage 4 of `match_players` (no match):
`confidence_tolerant` keeps its dataclass default `0.0`. -/
def no_match_result (event : Player) : MatchResult :=
  { event_player := event
    ref_player := none
    match_type := "NONE"
    confidence := 0.0
    confidence_tolerant := 0.0
    issues := ["NO_MATCH"] }

/-- The per-event body of the loop in `matching.match_players`: the
four-stage resolver. A `none` result models an exception escaping the stage
(only possible through the `assert` of `_pick_best_candidate`). -/
def resolve_event (sim : String → String → ℚ) (ref_players : List Player)
    (lastname_threshold firstname_threshold : ℚ) (event : Player) :
    Option MatchResult :=
  let event_key := nameKey event
  let exact_candidates := build_name_index ref_players event_key
  if exact_candidates ≠ [] then
    pick_best_candidate sim event exact_candidates "EXACT" 1.0 1.0
  else
    let swap_candidates := build_swap_index ref_players event_key
    if swap_candidates ≠ [] then
      pick_best_candidate sim event swap_candidates "NAME_SWAP" 1.0 1.0
    else
      match try_fuzzy_match sim event ref_players lastname_threshold
          firstname_threshold with
      | some fuzzy_result => some fuzzy_result
      | none => some (no_match_result event)

/-- `matching.match_players`: one result per event player, in input order;
`lastname_threshold` is the `fuzzy_threshold` parameter (default 0.85) and
`firstname_threshold` is the fixed `DEFAULT_FIRSTNAME_THRESHOLD`. A `none`
overall result models an exception escaping the loop. -/
def match_players (sim : String → String → ℚ)
    (ref_players event_players : List Player) (fuzzy_threshold : ℚ) :
    Option (List MatchResult) :=
  event_players.mapM
    (resolve_event sim ref_players fuzzy_threshold DEFAULT_FIRSTNAME_THRESHOLD)

/-! ## Auxiliary definitions for the proofs -/

/-- The common shape of the two best-candidate scans: fold over the list,
score a kept element, and replace the running best only on a strictly
greater score. `pick_best_loop` is the instance with `keep ≡ true`;
`try_fuzzy_loop` is the instance whose `keep` is the threshold test. -/
def best_scan (score : Player → ℚ) (keep : Player → Bool)
    (build : Player → MatchResult) :
    List Player → Option MatchResult × ℚ → Option MatchResult × ℚ
  | [], st => st
  | x :: xs, (b, c) =>
    if keep x then
      if c < score x then best_scan score keep build xs (some (build x), score x)
      else best_scan score keep build xs (b, c)
    else best_scan score keep build xs (b, c)

/-- The per-character action of `normalize_for_tolerant_comparison`:
decompose, drop combining marks, drop the removed punctuation, uppercase. -/
def charNorm (c : Char) : List Char :=
  (((nfdChar c).filter (fun ch => !(isMn ch))).filter
    (fun ch => !(removedChars.contains ch))).flatMap upperChar

/-- `charNorm c` leaves `c` alone (`charNorm c = [c]`), as a Boolean test. -/
def charNormFixed (c : Char) : Bool := charNorm c == [c]

/-- A concrete player record, used to instantiate proved theorems. -/
def samplePlayer : Player :=
  { extern_id := "P001", last_name := "MUELLER", first_name := "Hans",
    sex := "M", association := "GER", dob := 15, mob := 6, yob := 1985 }

/-- A second concrete player record sharing no name key with
`samplePlayer`. -/
def otherPlayer : Player :=
  { extern_id := "P002", last_name := "SCHMIDT", first_name := "Anna",
    sex := "F", association := "GER", dob := 3, mob := 4, yob := 1990 }

/-- A concrete stand-in for the similarity primitive. -/
def simZero : String → String → ℚ := fun _ _ => 0

/-! ## Properties of the rounding function -/

theorem roundHalfEven_le_floor_add_one (x : ℚ) : roundHalfEven x ≤ ⌊x⌋ + 1 := by
  unfold roundHalfEven
  split_ifs <;> omega

theorem floor_le_roundHalfEven (x : ℚ) : ⌊x⌋ ≤ roundHalfEven x := by
  unfold roundHalfEven
  split_ifs <;> omega

theorem roundHalfEven_nonneg {x : ℚ} (hx : 0 ≤ x) : 0 ≤ roundHalfEven x := by
  have h0 : (0 : ℤ) ≤ ⌊x⌋ := by exact_mod_cast Int.le_floor.mpr (by exact_mod_cast hx)
  have := floor_le_roundHalfEven x
  omega

theorem roundHalfEven_le_int {x : ℚ} {k : ℤ} (hx : x ≤ (k : ℚ)) :
    roundHalfEven x ≤ k := by
  have hfl : ⌊x⌋ ≤ k := by
    have := Int.floor_mono hx
    simpa using this
  rcases lt_or_eq_of_le hfl with h | h
  · have := roundHalfEven_le_floor_add_one x
    omega
  · have hfrac : x - (⌊x⌋ : ℚ) < 1/2 := by
      have : x - (⌊x⌋ : ℚ) ≤ 0 := by
        rw [h]; linarith
      linarith
    unfold roundHalfEven
    rw [if_pos hfrac]
    omega

theorem roundHalfEven_mono {x y : ℚ} (hxy : x ≤ y) :
    roundHalfEven x ≤ roundHalfEven y := by
  have hfl : ⌊x⌋ ≤ ⌊y⌋ := Int.floor_mono hxy
  rcases lt_or_eq_of_le hfl with h | h
  · calc roundHalfEven x ≤ ⌊x⌋ + 1 := roundHalfEven_le_floor_add_one x
      _ ≤ ⌊y⌋ := by omega
      _ ≤ roundHalfEven y := floor_le_roundHalfEven y
  · unfold roundHalfEven
    rw [h]
    split_ifs <;> first | omega | (exfalso; linarith)

theorem roundHalfEven_intCast (k : ℤ) : roundHalfEven (k : ℚ) = k := by
  unfold roundHalfEven
  rw [Int.floor_intCast]
  rw [if_pos (by norm_num)]

/-- Exactly when a value not exceeding 10000 rounds up to 10000:
iff it is at least 9999.5 (the tie itself goes to the even side, 10000). -/
theorem roundHalfEven_eq_10000_iff {x : ℚ} (hx : x ≤ 10000) :
    roundHalfEven x = 10000 ↔ (19999 : ℚ)/2 ≤ x := by
  constructor
  · intro h
    by_contra hlt
    push_neg at hlt
    have hfl : ⌊x⌋ ≤ 9999 := by
      have : ⌊x⌋ < 10000 := Int.floor_lt.mpr (by push_cast; linarith)
      omega
    rcases lt_or_eq_of_le hfl with h' | h'
    · have := roundHalfEven_le_floor_add_one x
      omega
    · have hfrac : x - (⌊x⌋ : ℚ) < 1/2 := by
        rw [h']
        push_cast
        linarith
      unfold roundHalfEven at h
      rw [if_pos hfrac] at h
      omega
  · intro h
    have h9999 : (9999 : ℤ) ≤ ⌊x⌋ := Int.le_floor.mpr (by push_cast; linarith)
    have h10000 : ⌊x⌋ ≤ 10000 := by
      have := Int.floor_mono hx
      simpa using this
    rcases lt_or_eq_of_le h10000 with h' | h'
    · have hfl : ⌊x⌋ = 9999 := by omega
      have hfrac : (1:ℚ)/2 ≤ x - (⌊x⌋ : ℚ) := by
        rw [hfl]; push_cast; linarith
      unfold roundHalfEven
      rcases lt_or_eq_of_le hfrac with hf | hf
      · rw [if_neg (by linarith), if_pos hf]
        omega
      · rw [if_neg (by linarith), if_neg (by linarith),
          if_neg (by rw [hfl]; norm_num)]
        omega
    · have hfrac : x - (⌊x⌋ : ℚ) < 1/2 := by
        rw [h']; push_cast; linarith
      unfold roundHalfEven
      rw [if_pos hfrac]
      omega

theorem pyRound_nonneg {x : ℚ} (hx : 0 ≤ x) (n : ℕ) : 0 ≤ pyRound x n := by
  unfold pyRound
  apply div_nonneg _ (by positivity)
  exact_mod_cast roundHalfEven_nonneg (mul_nonneg hx (by positivity))

theorem pyRound_mono {x y : ℚ} (hxy : x ≤ y) (n : ℕ) :
    pyRound x n ≤ pyRound y n := by
  unfold pyRound
  have hpow : (0 : ℚ) < 10 ^ n := by positivity
  rw [div_le_div_iff_of_pos_right hpow]
  exact_mod_cast roundHalfEven_mono (mul_le_mul_of_nonneg_right hxy (le_of_lt hpow))

theorem pyRound_le_one {x : ℚ} (hx : x ≤ 1) (n : ℕ) : pyRound x n ≤ 1 := by
  unfold pyRound
  rw [div_le_one (by positivity)]
  have h : roundHalfEven (x * 10 ^ n) ≤ ((10 : ℤ) ^ n) := by
    apply roundHalfEven_le_int
    push_cast
    calc x * 10 ^ n ≤ 1 * 10 ^ n := by
          exact mul_le_mul_of_nonneg_right hx (by positivity)
      _ = 10 ^ n := one_mul _
  exact_mod_cast h

theorem pyRound4_eq_one_iff {x : ℚ} (hx : x ≤ 1) :
    pyRound x 4 = 1 ↔ (19999 : ℚ)/20000 ≤ x := by
  unfold pyRound
  rw [div_eq_one_iff_eq (by norm_num)]
  have hx4 : x * 10 ^ 4 ≤ 10000 := by nlinarith
  rw [show ((10:ℚ) ^ 4) = 10000 by norm_num]
  constructor
  · intro h
    have : (19999 : ℚ)/2 ≤ x * 10000 :=
      (roundHalfEven_eq_10000_iff (by linarith)).mp (by exact_mod_cast h)
    linarith
  · intro h
    have : roundHalfEven (x * 10000) = 10000 :=
      (roundHalfEven_eq_10000_iff (by linarith)).mpr (by linarith)
    exact_mod_cast this

/-! ## Properties of the scoring engine -/

theorem WEIGHTS_lastname : WEIGHTS "lastname" = 3/10 := by norm_num [WEIGHTS]

theorem WEIGHTS_firstname : WEIGHTS "firstname" = 1/4 := by norm_num [WEIGHTS]

theorem WEIGHTS_dob : WEIGHTS "dob" = 1/10 := by norm_num [WEIGHTS]

theorem WEIGHTS_mob : WEIGHTS "mob" = 1/10 := by norm_num [WEIGHTS]

theorem WEIGHTS_yob : WEIGHTS "yob" = 3/20 := by norm_num [WEIGHTS]

theorem WEIGHTS_sex : WEIGHTS "sex" = 1/20 := by norm_num [WEIGHTS]

theorem WEIGHTS_association : WEIGHTS "association" = 1/20 := by norm_num [WEIGHTS]

/-- Each Boolean component indicator lies in `[0, 1]`. -/
theorem indicator_bounds (c : Bool) :
    (0 : ℚ) ≤ (if c then (1.0 : ℚ) else 0.0) ∧ (if c then (1.0 : ℚ) else 0.0) ≤ 1 := by
  cases c <;> norm_num

theorem calculate_confidence_nonneg (e r : Player) {ls fs : ℚ}
    (hl : 0 ≤ ls) (hf : 0 ≤ fs) : 0 ≤ calculate_confidence e r ls fs := by
  simp only [calculate_confidence]
  apply pyRound_nonneg
  obtain ⟨a1, -⟩ := indicator_bounds (e.dob == r.dob || is_dob_mob_swapped e r)
  obtain ⟨a2, -⟩ := indicator_bounds (e.mob == r.mob || is_dob_mob_swapped e r)
  obtain ⟨a3, -⟩ := indicator_bounds (e.yob == r.yob)
  obtain ⟨a4, -⟩ := indicator_bounds (pyUpper e.sex == pyUpper r.sex)
  obtain ⟨a5, -⟩ := indicator_bounds (pyUpper e.association == pyUpper r.association)
  rw [WEIGHTS_lastname, WEIGHTS_firstname, WEIGHTS_dob, WEIGHTS_mob,
    WEIGHTS_yob, WEIGHTS_sex, WEIGHTS_association]
  linarith

theorem calculate_confidence_le_one (e r : Player) {ls fs : ℚ}
    (hl : ls ≤ 1) (hf : fs ≤ 1) : calculate_confidence e r ls fs ≤ 1 := by
  simp only [calculate_confidence]
  apply pyRound_le_one
  obtain ⟨-, a1⟩ := indicator_bounds (e.dob == r.dob || is_dob_mob_swapped e r)
  obtain ⟨-, a2⟩ := indicator_bounds (e.mob == r.mob || is_dob_mob_swapped e r)
  obtain ⟨-, a3⟩ := indicator_bounds (e.yob == r.yob)
  obtain ⟨-, a4⟩ := indicator_bounds (pyUpper e.sex == pyUpper r.sex)
  obtain ⟨-, a5⟩ := indicator_bounds (pyUpper e.association == pyUpper r.association)
  rw [WEIGHTS_lastname, WEIGHTS_firstname, WEIGHTS_dob, WEIGHTS_mob,
    WEIGHTS_yob, WEIGHTS_sex, WEIGHTS_association]
  linarith

/-- The tolerant score never drops below the normal score when the supplied
similarities are at most 1 (each name component of the tolerant score is
`1.0` or a `max` with the original similarity as one argument, and all other
components coincide; rounding is monotone). -/
theorem tolerant_ge_normal (sim : String → String → ℚ) (e r : Player)
    {ls fs : ℚ} (hl : ls ≤ 1) (hf : fs ≤ 1) :
    calculate_confidence e r ls fs ≤ calculate_confidence_tolerant sim e r ls fs := by
  simp only [calculate_confidence, calculate_confidence_tolerant]
  apply pyRound_mono
  have hln : ls ≤ (if normalize_for_tolerant_comparison e.last_name
      == normalize_for_tolerant_comparison r.last_name then (1.0 : ℚ)
      else max ls (sim (normalize_for_tolerant_comparison e.last_name)
        (normalize_for_tolerant_comparison r.last_name))) := by
    split
    · norm_num; exact hl
    · exact le_max_left _ _
  have hfn : fs ≤ (if normalize_for_tolerant_comparison e.first_name
      == normalize_for_tolerant_comparison r.first_name then (1.0 : ℚ)
      else max fs (sim (normalize_for_tolerant_comparison e.first_name)
        (normalize_for_tolerant_comparison r.first_name))) := by
    split
    · norm_num; exact hf
    · exact le_max_left _ _
  rw [WEIGHTS_lastname, WEIGHTS_firstname, WEIGHTS_dob, WEIGHTS_mob,
    WEIGHTS_yob, WEIGHTS_sex, WEIGHTS_association]
  linarith

/-! ## Claim C1 -/

/-- C1: for every event record, reference record and name similarities,
`calculate_confidence` returns the weighted sum
`0.30·lastSim + 0.25·firstSim + 0.10·day + 0.10·month + 0.15·year +
0.05·sex + 0.05·affiliation` rounded to 4 decimal places, where the day and
month components are 1 iff the field is equal or a date transposition
(`event.dob = ref.mob ∧ event.mob = ref.dob ∧ event.yob = ref.yob ∧
event.dob ≠ event.mob`) is detected, the year component is 1 iff the years
are equal, and the sex/affiliation components are 1 iff the fields are equal
case-insensitively (equal after `upper()`). -/
theorem claim_C1_confidence_formula (e r : Player) (ls fs : ℚ) :
    calculate_confidence e r ls fs =
      pyRound (0.30 * ls + 0.25 * fs
        + 0.10 * (if e.dob = r.dob
            ∨ (e.dob = r.mob ∧ e.mob = r.dob ∧ e.yob = r.yob ∧ e.dob ≠ e.mob)
            then (1 : ℚ) else 0)
        + 0.10 * (if e.mob = r.mob
            ∨ (e.dob = r.mob ∧ e.mob = r.dob ∧ e.yob = r.yob ∧ e.dob ≠ e.mob)
            then (1 : ℚ) else 0)
        + 0.15 * (if e.yob = r.yob then (1 : ℚ) else 0)
        + 0.05 * (if pyUpper e.sex = pyUpper r.sex then (1 : ℚ) else 0)
        + 0.05 * (if pyUpper e.association = pyUpper r.association
            then (1 : ℚ) else 0)) 4 := by
  simp only [calculate_confidence, is_dob_mob_swapped, WEIGHTS_lastname,
    WEIGHTS_firstname, WEIGHTS_dob, WEIGHTS_mob, WEIGHTS_yob, WEIGHTS_sex,
    WEIGHTS_association, Bool.or_eq_true, Bool.and_eq_true, beq_iff_eq,
    bne_iff_ne, and_assoc]
  norm_num

/-! ## Claim C6 -/

/-- An indicator over a true condition is 1. -/
theorem indicator_one {c : Bool} (h : c = true) :
    (if c then (1.0 : ℚ) else 0.0) = 1 := by
  rw [if_pos h]; norm_num

/-- An indicator over a false condition is 0. -/
theorem indicator_zero {c : Bool} (h : c = false) :
    (if c then (1.0 : ℚ) else 0.0) = 0 := by
  rw [if_neg (by simp [h])]; norm_num

/-- C6 (counterexample): the claim "`calculate_confidence` returns 1.0 only
when lastSim = 1.0 and firstSim = 1.0 and all other components maximal" is
false: with identical records, lastSim = 1 and firstSim = 0.99999 (which lies
in [0,1] and is not 1), the weighted sum is 0.9999975 and rounds to 1.0. -/
theorem claim_C6_counterexample :
    calculate_confidence samplePlayer samplePlayer 1 (99999/100000) = 1
    ∧ (0 : ℚ) ≤ 99999/100000 ∧ (99999 : ℚ)/100000 ≤ 1
    ∧ (99999 : ℚ)/100000 ≠ 1 := by
  refine ⟨?_, by norm_num, by norm_num, by norm_num⟩
  simp only [calculate_confidence, WEIGHTS_lastname, WEIGHTS_firstname,
    WEIGHTS_dob, WEIGHTS_mob, WEIGHTS_yob, WEIGHTS_sex, WEIGHTS_association]
  rw [indicator_one (by decide), indicator_one (by decide),
    indicator_one (by decide), indicator_one (by decide),
    indicator_one (by decide)]
  rw [pyRound4_eq_one_iff (by norm_num)]
  norm_num

/-- C6 (amended): for similarities in [0,1], `calculate_confidence` returns
1.0 iff the five discrete components are individually maximal (each date
field equal or the transposition detected, sex and affiliation equal
case-insensitively) and the name part `0.30·lastSim + 0.25·firstSim` reaches
0.54995, so that the total rounds to 1.0 — the name similarities need not be
exactly 1.0. -/
theorem claim_C6_amended (e r : Player) (ls fs : ℚ)
    (h0 : 0 ≤ ls) (h1 : ls ≤ 1) (h2 : 0 ≤ fs) (h3 : fs ≤ 1) :
    calculate_confidence e r ls fs = 1 ↔
      ((e.dob = r.dob ∨ is_dob_mob_swapped e r = true)
       ∧ (e.mob = r.mob ∨ is_dob_mob_swapped e r = true)
       ∧ e.yob = r.yob
       ∧ pyUpper e.sex = pyUpper r.sex
       ∧ pyUpper e.association = pyUpper r.association
       ∧ (10999 : ℚ)/20000 ≤ 3/10 * ls + 1/4 * fs) := by
  obtain ⟨a1, b1⟩ := indicator_bounds (e.dob == r.dob || is_dob_mob_swapped e r)
  obtain ⟨a2, b2⟩ := indicator_bounds (e.mob == r.mob || is_dob_mob_swapped e r)
  obtain ⟨a3, b3⟩ := indicator_bounds (e.yob == r.yob)
  obtain ⟨a4, b4⟩ := indicator_bounds (pyUpper e.sex == pyUpper r.sex)
  obtain ⟨a5, b5⟩ :=
    indicator_bounds (pyUpper e.association == pyUpper r.association)
  simp only [calculate_confidence, WEIGHTS_lastname, WEIGHTS_firstname,
    WEIGHTS_dob, WEIGHTS_mob, WEIGHTS_yob, WEIGHTS_sex, WEIGHTS_association]
  rw [pyRound4_eq_one_iff (by linarith)]
  constructor
  · intro h
    refine ⟨?_, ?_, ?_, ?_, ?_, ?_⟩
    · by_contra hq
      have hb : (e.dob == r.dob || is_dob_mob_swapped e r) = false := by
        rw [Bool.eq_false_iff]
        intro hx
        exact hq (by simpa using hx)
      rw [indicator_zero hb] at h
      linarith
    · by_contra hq
      have hb : (e.mob == r.mob || is_dob_mob_swapped e r) = false := by
        rw [Bool.eq_false_iff]
        intro hx
        exact hq (by simpa using hx)
      rw [indicator_zero hb] at h
      linarith
    · by_contra hq
      have hb : (e.yob == r.yob) = false := by
        rw [Bool.eq_false_iff]
        intro hx
        exact hq (by simpa using hx)
      rw [indicator_zero hb] at h
      linarith
    · by_contra hq
      have hb : (pyUpper e.sex == pyUpper r.sex) = false := by
        rw [Bool.eq_false_iff]
        intro hx
        exact hq (by simpa using hx)
      rw [indicator_zero hb] at h
      linarith
    · by_contra hq
      have hb : (pyUpper e.association == pyUpper r.association) = false := by
        rw [Bool.eq_false_iff]
        intro hx
        exact hq (by simpa using hx)
      rw [indicator_zero hb] at h
      linarith
    · linarith
  · rintro ⟨q1, q2, q3, q4, q5, q6⟩
    rw [indicator_one (by simp only [Bool.or_eq_true, beq_iff_eq]; exact q1),
      indicator_one (by simp only [Bool.or_eq_true, beq_iff_eq]; exact q2),
      indicator_one (by simpa using q3),
      indicator_one (by simpa using q4),
      indicator_one (by simpa using q5)]
    linarith

/-! ## Claim C7 -/

/-- C7 (counterexample): the claimed input — one on which the tolerant
confidence is strictly smaller than the normal confidence, with similarities
in [0,1] — does not exist: `tolerant ≥ normal` is in fact a hard invariant
on that domain. -/
theorem claim_C7_counterexample :
    ¬ ∃ (sim : String → String → ℚ) (e r : Player) (ls fs : ℚ),
        (0 ≤ ls ∧ ls ≤ 1 ∧ 0 ≤ fs ∧ fs ≤ 1)
        ∧ calculate_confidence_tolerant sim e r ls fs
            < calculate_confidence e r ls fs := by
  rintro ⟨sim, e, r, ls, fs, ⟨-, h1, -, h3⟩, hlt⟩
  exact absurd (tolerant_ge_normal sim e r h1 h3) (not_le.mpr hlt)

/-- C7 (amended): `tolerant ≥ normal` IS a hard invariant of
`calculate_confidence_tolerant` versus `calculate_confidence` for every
input with similarities in [0,1] (and every similarity primitive): each
tolerant name component is 1.0 or a `max` containing the original
similarity, every other component coincides, and rounding is monotone. -/
theorem claim_C7_amended (sim : String → String → ℚ) (e r : Player)
    (ls fs : ℚ) (h0 : 0 ≤ ls) (h1 : ls ≤ 1) (h2 : 0 ≤ fs) (h3 : fs ≤ 1) :
    calculate_confidence e r ls fs ≤ calculate_confidence_tolerant sim e r ls fs :=
  tolerant_ge_normal sim e r h1 h3

/-- C7 (witness): the amended claim applied at a concrete input. -/
theorem claim_C7_witness :
    calculate_confidence samplePlayer otherPlayer 1 1
      ≤ calculate_confidence_tolerant simZero samplePlayer otherPlayer 1 1 :=
  claim_C7_amended simZero samplePlayer otherPlayer 1 1
    (by norm_num) (by norm_num) (by norm_num) (by norm_num)

/-! ## Claim C8 -/

/-- Membership in a conditionally-present singleton segment of the issue
list. -/
theorem mem_cond_singleton {a b : String} {c : Prop} [Decidable c] :
    a ∈ (if c then [b] else ([] : List String)) ↔ c ∧ a = b := by
  split <;> rename_i h <;> simp [h]

/-- C8: `detect_issues` never returns DOB_MOB_SWAPPED together with
DOB_MISMATCH or MOB_MISMATCH; a detected transposition (event.dob = ref.mob,
event.mob = ref.dob, same year, event.dob ≠ event.mob) emits DOB_MOB_SWAPPED
and suppresses both individual mismatch codes. -/
theorem claim_C8_swap_suppresses_mismatch (e r : Player) (mt : String)
    (ls fs : ℚ) :
    (is_dob_mob_swapped e r = true ↔
      (e.dob = r.mob ∧ e.mob = r.dob ∧ e.yob = r.yob ∧ e.dob ≠ e.mob))
    ∧ ("DOB_MOB_SWAPPED" ∈ detect_issues e r mt ls fs ↔
        is_dob_mob_swapped e r = true)
    ∧ (is_dob_mob_swapped e r = true →
        "DOB_MISMATCH" ∉ detect_issues e r mt ls fs
        ∧ "MOB_MISMATCH" ∉ detect_issues e r mt ls fs)
    ∧ ¬("DOB_MOB_SWAPPED" ∈ detect_issues e r mt ls fs
        ∧ ("DOB_MISMATCH" ∈ detect_issues e r mt ls fs
           ∨ "MOB_MISMATCH" ∈ detect_issues e r mt ls fs)) := by
  refine ⟨?_, ?_, ?_, ?_⟩
  · simp [is_dob_mob_swapped, and_assoc]
  · cases hs : is_dob_mob_swapped e r <;>
      simp [detect_issues, hs, mem_cond_singleton]
  · intro hs
    simp [detect_issues, hs, mem_cond_singleton]
  · rintro ⟨h1, h2⟩
    cases hs : is_dob_mob_swapped e r
    · simp [detect_issues, hs, mem_cond_singleton] at h1
    · simp [detect_issues, hs, mem_cond_singleton] at h2

/-! ## Claim C9 -/

theorem lookup_mem {l : List (Char × List Char)} {c : Char} {v : List Char}
    (h : l.lookup c = some v) : (c, v) ∈ l := by
  induction l with
  | nil => simp [List.lookup] at h
  | cons p rest ih =>
    obtain ⟨k, w⟩ := p
    rw [List.lookup_cons] at h
    cases hbeq : c == k
    · rw [hbeq] at h
      exact List.mem_cons_of_mem _ (ih h)
    · rw [hbeq] at h
      have hv : w = v := by simpa using h
      have hk : c = k := eq_of_beq hbeq
      rw [hk, hv]
      exact List.mem_cons_self _ _

/-- `normalize_for_tolerant_comparison` acts independently on each input
character, through `charNorm`. -/
theorem normalize_eq_flatMap (s : String) :
    normalize_for_tolerant_comparison s = ⟨s.data.flatMap charNorm⟩ := by
  simp only [normalize_for_tolerant_comparison, pyNFD, pyUpper, charNorm]
  congr 1
  rw [List.filter_flatMap, List.filter_flatMap, List.flatMap_assoc]
  rfl

/-- Every character of every decomposition in the NFD table normalizes to
itself once the marks and punctuation are filtered and case is applied
(finite check over the table). -/
theorem nfdTable_good : nfdTable.all (fun ent =>
    (((ent.2.filter (fun ch => !(isMn ch))).filter
      (fun ch => !(removedChars.contains ch))).flatMap upperChar).all
        charNormFixed) = true := by decide

/-- Every output of the uppercase table taken at a character with no NFD
decomposition is a fixed point of `charNorm` (finite check over the table;
the accented lowercase keys are exempt — they decompose first and never
reach the uppercase step). -/
theorem upperTable_good :
    upperTable.all (fun ent =>
      (nfdTable.lookup ent.1).isSome || ent.2.all charNormFixed) = true := by
  decide

/-- Every character produced by `charNorm` is a fixed point of `charNorm`. -/
theorem charNorm_output_fixed (c : Char) : ∀ d ∈ charNorm c, charNorm d = [d] := by
  intro d hd
  unfold charNorm at hd
  rw [List.mem_flatMap] at hd
  obtain ⟨b, hb, hdb⟩ := hd
  rw [List.mem_filter] at hb
  obtain ⟨hb1, hbp2⟩ := hb
  rw [List.mem_filter] at hb1
  obtain ⟨hbnfd, hbp1⟩ := hb1
  cases hnfd : nfdTable.lookup c with
  | some v =>
    have hcv : (c, v) ∈ nfdTable := lookup_mem hnfd
    have hgood := nfdTable_good
    rw [List.all_eq_true] at hgood
    have hentry := hgood _ hcv
    rw [List.all_eq_true] at hentry
    have hveq : nfdChar c = v := by simp [nfdChar, hnfd]
    have hdmem : d ∈ ((v.filter (fun ch => !(isMn ch))).filter
        (fun ch => !(removedChars.contains ch))).flatMap upperChar := by
      rw [List.mem_flatMap]
      refine ⟨b, ?_, hdb⟩
      rw [List.mem_filter]
      refine ⟨?_, hbp2⟩
      rw [List.mem_filter]
      exact ⟨hveq ▸ hbnfd, hbp1⟩
    have hfix := hentry d hdmem
    simpa [charNormFixed] using hfix
  | none =>
    have hceq : nfdChar c = [c] := by simp [nfdChar, hnfd]
    rw [hceq, List.mem_singleton] at hbnfd
    subst hbnfd
    cases hup : upperTable.lookup b with
    | some u =>
      have hcu : (b, u) ∈ upperTable := lookup_mem hup
      have hgood := upperTable_good
      rw [List.all_eq_true] at hgood
      have hentry := hgood _ hcu
      rw [Bool.or_eq_true, List.all_eq_true] at hentry
      rcases hentry with hsome | hentry
      · rw [hnfd] at hsome
        simp at hsome
      · have hueq : upperChar b = u := by simp [upperChar, hup]
        have hfix := hentry d (hueq ▸ hdb)
        simpa [charNormFixed] using hfix
    | none =>
      have hupb : upperChar b = [b] := by simp [upperChar, hup]
      rw [hupb, List.mem_singleton] at hdb
      subst hdb
      unfold charNorm
      rw [hceq, List.filter_cons, if_pos hbp1, List.filter_nil,
        List.filter_cons, if_pos hbp2, List.filter_nil,
        List.flatMap_cons, List.flatMap_nil, hupb]
      rfl

/-- A list of `charNorm`-fixed characters is unchanged by a `charNorm`
pass. -/
theorem flatMap_charNorm_fixed {m : List Char}
    (h : ∀ d ∈ m, charNorm d = [d]) : m.flatMap charNorm = m := by
  induction m with
  | nil => rfl
  | cons a t ih =>
    rw [List.flatMap_cons, h a (List.mem_cons_self a t),
      ih (fun d hd => h d (List.mem_cons_of_mem a hd))]
    rfl

/-- C9: the tolerant name normalization is idempotent. -/
theorem claim_C9_normalize_idempotent (x : String) :
    normalize_for_tolerant_comparison (normalize_for_tolerant_comparison x)
      = normalize_for_tolerant_comparison x := by
  rw [normalize_eq_flatMap, normalize_eq_flatMap]
  congr 1
  show (x.data.flatMap charNorm).flatMap charNorm = x.data.flatMap charNorm
  exact flatMap_charNorm_fixed (fun d hd => by
    obtain ⟨a, -, hda⟩ := List.mem_flatMap.mp hd
    exact charNorm_output_fixed a d hda)

/-! ## The best-candidate scans -/

theorem pick_best_loop_eq_best_scan (sim : String → String → ℚ) (e : Player)
    (mt : String) (ls fs : ℚ) (l : List Player) (st : Option MatchResult × ℚ) :
    pick_best_loop sim e mt ls fs l st =
      best_scan
        (fun x => calculate_confidence e x (if mt == "NAME_SWAP" then 1.0 else ls)
          (if mt == "NAME_SWAP" then 1.0 else fs))
        (fun _ => true)
        (fun x => mk_candidate_result sim e x mt
          (if mt == "NAME_SWAP" then 1.0 else ls)
          (if mt == "NAME_SWAP" then 1.0 else fs)) l st := by
  induction l generalizing st with
  | nil => rfl
  | cons a t ih =>
    obtain ⟨b, c⟩ := st
    simp only [pick_best_loop, best_scan, if_true]
    by_cases hlt : c < calculate_confidence e a
        (if mt == "NAME_SWAP" then (1.0 : ℚ) else ls)
        (if mt == "NAME_SWAP" then (1.0 : ℚ) else fs)
    · rw [if_pos hlt, if_pos hlt]
      exact ih _
    · rw [if_neg hlt, if_neg hlt]
      exact ih _

theorem try_fuzzy_loop_eq_best_scan (sim : String → String → ℚ) (e : Player)
    (eln efn : String) (lt ft : ℚ) (l : List Player)
    (st : Option MatchResult × ℚ) :
    try_fuzzy_loop sim e eln efn lt ft l st =
      best_scan
        (fun x => calculate_confidence e x (sim eln (normalize_key x.last_name))
          (sim efn (normalize_key x.first_name)))
        (fun x => decide (lt ≤ sim eln (normalize_key x.last_name)
          ∧ ft ≤ sim efn (normalize_key x.first_name)))
        (fun x => mk_candidate_result sim e x "FUZZY"
          (sim eln (normalize_key x.last_name))
          (sim efn (normalize_key x.first_name))) l st := by
  induction l generalizing st with
  | nil => rfl
  | cons a t ih =>
    obtain ⟨b, c⟩ := st
    simp only [try_fuzzy_loop, best_scan, decide_eq_true_eq]
    by_cases hkeep : lt ≤ sim eln (normalize_key a.last_name)
        ∧ ft ≤ sim efn (normalize_key a.first_name)
    · rw [if_pos hkeep, if_pos hkeep]
      by_cases hlt : c < calculate_confidence e a
          (sim eln (normalize_key a.last_name))
          (sim efn (normalize_key a.first_name))
      · rw [if_pos hlt, if_pos hlt]
        exact ih _
      · rw [if_neg hlt, if_neg hlt]
        exact ih _
    · rw [if_neg hkeep, if_neg hkeep]
      exact ih _

/-- The behaviour of a best-candidate scan: either nothing beat the incoming
state (and every kept element scores at most the incoming confidence), or
the scan returns the first kept element attaining the strict maximum of the
kept scores above the incoming confidence. -/
theorem best_scan_spec (score : Player → ℚ) (keep : Player → Bool)
    (build : Player → MatchResult) (l : List Player) (b : Option MatchResult)
    (c : ℚ) :
    (best_scan score keep build l (b, c) = (b, c)
      ∧ ∀ x ∈ l, keep x = true → score x ≤ c)
    ∨ (∃ i, ∃ hi : i < l.length,
        keep (l.get ⟨i, hi⟩) = true
        ∧ best_scan score keep build l (b, c)
            = (some (build (l.get ⟨i, hi⟩)), score (l.get ⟨i, hi⟩))
        ∧ c < score (l.get ⟨i, hi⟩)
        ∧ (∀ j, ∀ hj : j < l.length, keep (l.get ⟨j, hj⟩) = true →
            score (l.get ⟨j, hj⟩) ≤ score (l.get ⟨i, hi⟩))
        ∧ (∀ j, ∀ hj : j < l.length, j < i → keep (l.get ⟨j, hj⟩) = true →
            score (l.get ⟨j, hj⟩) < score (l.get ⟨i, hi⟩))) := by
  induction l generalizing b c with
  | nil => left; exact ⟨rfl, by simp⟩
  | cons a t ih =>
    by_cases hk : keep a = true
    · by_cases hlt : c < score a
      · have hstep : best_scan score keep build (a :: t) (b, c)
            = best_scan score keep build t (some (build a), score a) := by
          simp [best_scan, hk, hlt]
        rcases ih (some (build a)) (score a) with
          ⟨heq, hall⟩ | ⟨i, hi, hki, heq, hc, hmax, hfirst⟩
        · right
          refine ⟨0, by simp, hk, ?_, hlt, ?_, ?_⟩
          · rw [hstep, heq]
            rfl
          · intro j hj hkj
            cases j with
            | zero => exact le_refl _
            | succ j =>
              have hj' : j < t.length := by simpa using hj
              exact hall _ (List.get_mem t j hj') hkj
          · intro j hj hj0 hkj
            omega
        · right
          have hi' : i + 1 < (a :: t).length := by simpa using hi
          refine ⟨i + 1, hi', hki, ?_, lt_trans hlt hc, ?_, ?_⟩
          · rw [hstep, heq]
            rfl
          · intro j hj hkj
            cases j with
            | zero => exact le_of_lt hc
            | succ j =>
              have hj' : j < t.length := by simpa using hj
              exact hmax j hj' hkj
          · intro j hj hji hkj
            cases j with
            | zero => exact hc
            | succ j =>
              have hj' : j < t.length := by simpa using hj
              exact hfirst j hj' (by omega) hkj
      · have hstep : best_scan score keep build (a :: t) (b, c)
            = best_scan score keep build t (b, c) := by
          simp [best_scan, hk, hlt]
        push_neg at hlt
        rcases ih b c with
          ⟨heq, hall⟩ | ⟨i, hi, hki, heq, hc, hmax, hfirst⟩
        · left
          refine ⟨by rw [hstep, heq], ?_⟩
          intro x hx hkx
          rcases List.mem_cons.mp hx with rfl | hx
          · exact hlt
          · exact hall x hx hkx
        · right
          have hi' : i + 1 < (a :: t).length := by simpa using hi
          refine ⟨i + 1, hi', hki, ?_, hc, ?_, ?_⟩
          · rw [hstep, heq]
            rfl
          · intro j hj hkj
            cases j with
            | zero => exact le_trans hlt (le_of_lt hc)
            | succ j =>
              have hj' : j < t.length := by simpa using hj
              exact hmax j hj' hkj
          · intro j hj hji hkj
            cases j with
            | zero => exact lt_of_le_of_lt hlt hc
            | succ j =>
              have hj' : j < t.length := by simpa using hj
              exact hfirst j hj' (by omega) hkj
    · have hstep : best_scan score keep build (a :: t) (b, c)
          = best_scan score keep build t (b, c) := by
        simp [best_scan, hk]
      rcases ih b c with
        ⟨heq, hall⟩ | ⟨i, hi, hki, heq, hc, hmax, hfirst⟩
      · left
        refine ⟨by rw [hstep, heq], ?_⟩
        intro x hx hkx
        rcases List.mem_cons.mp hx with rfl | hx
        · exact absurd hkx hk
        · exact hall x hx hkx
      · right
        have hi' : i + 1 < (a :: t).length := by simpa using hi
        refine ⟨i + 1, hi', hki, ?_, hc, ?_, ?_⟩
        · rw [hstep, heq]
          rfl
        · intro j hj hkj
          cases j with
          | zero => exact absurd hkj hk
          | succ j =>
            have hj' : j < t.length := by simpa using hj
            exact hmax j hj' hkj
        · intro j hj hji hkj
          cases j with
          | zero => exact absurd hkj hk
          | succ j =>
            have hj' : j < t.length := by simpa using hj
            exact hfirst j hj' (by omega) hkj

/-- A `some` result of `_pick_best_candidate` is built from the first
candidate attaining the strict maximum confidence. -/
theorem pick_best_candidate_some (sim : String → String → ℚ) (e : Player)
    (cands : List Player) (mt : String) (ls fs : ℚ) {r : MatchResult}
    (h : pick_best_candidate sim e cands mt ls fs = some r) :
    ∃ i, ∃ hi : i < cands.length,
      r = mk_candidate_result sim e (cands.get ⟨i, hi⟩) mt
          (if mt == "NAME_SWAP" then 1.0 else ls)
          (if mt == "NAME_SWAP" then 1.0 else fs)
      ∧ (∀ j, ∀ hj : j < cands.length,
          calculate_confidence e (cands.get ⟨j, hj⟩)
              (if mt == "NAME_SWAP" then 1.0 else ls)
              (if mt == "NAME_SWAP" then 1.0 else fs)
            ≤ calculate_confidence e (cands.get ⟨i, hi⟩)
              (if mt == "NAME_SWAP" then 1.0 else ls)
              (if mt == "NAME_SWAP" then 1.0 else fs))
      ∧ (∀ j, ∀ hj : j < cands.length, j < i →
          calculate_confidence e (cands.get ⟨j, hj⟩)
              (if mt == "NAME_SWAP" then 1.0 else ls)
              (if mt == "NAME_SWAP" then 1.0 else fs)
            < calculate_confidence e (cands.get ⟨i, hi⟩)
              (if mt == "NAME_SWAP" then 1.0 else ls)
              (if mt == "NAME_SWAP" then 1.0 else fs)) := by
  unfold pick_best_candidate at h
  rw [pick_best_loop_eq_best_scan] at h
  rcases best_scan_spec _ _ _ cands none (-1.0) with
    ⟨heq, -⟩ | ⟨i, hi, -, heq, -, hmax, hfirst⟩
  · rw [heq] at h
    exact absurd h (by simp)
  · rw [heq] at h
    refine ⟨i, hi, ?_, fun j hj => hmax j hj rfl,
      fun j hj hji => hfirst j hj hji rfl⟩
    exact (Option.some_injective _ h).symm

/-- With a nonempty candidate list and nonnegative similarities, the
`_pick_best_candidate` loop always adopts a best candidate (the first
confidence is at least 0 and beats the initial −1.0), so the trailing
`assert` never fires. -/
theorem pick_best_candidate_isSome (sim : String → String → ℚ) (e : Player)
    (cands : List Player) (mt : String) (ls fs : ℚ)
    (hne : cands ≠ []) (hls : 0 ≤ ls) (hfs : 0 ≤ fs) :
    ∃ r, pick_best_candidate sim e cands mt ls fs = some r := by
  obtain ⟨a, t, rfl⟩ := List.exists_cons_of_ne_nil hne
  unfold pick_best_candidate
  rw [pick_best_loop_eq_best_scan]
  rcases best_scan_spec
      (fun x => calculate_confidence e x (if mt == "NAME_SWAP" then 1.0 else ls)
        (if mt == "NAME_SWAP" then 1.0 else fs))
      (fun _ => true)
      (fun x => mk_candidate_result sim e x mt
        (if mt == "NAME_SWAP" then 1.0 else ls)
        (if mt == "NAME_SWAP" then 1.0 else fs))
      (a :: t) none (-1.0) with
    ⟨-, hall⟩ | ⟨i, hi, -, heq, -, -⟩
  · exfalso
    have hle := hall a (List.mem_cons_self a t) rfl
    have h0 : 0 ≤ calculate_confidence e a
        (if mt == "NAME_SWAP" then (1.0 : ℚ) else ls)
        (if mt == "NAME_SWAP" then (1.0 : ℚ) else fs) := by
      apply calculate_confidence_nonneg
      · split
        · norm_num
        · exact hls
      · split
        · norm_num
        · exact hfs
    linarith [hle, h0]
  · exact ⟨_, by rw [heq]⟩

/-- A `some` result of `_try_fuzzy_match` comes from a reference record that
passes both thresholds and is the first one attaining the strict maximum
confidence among the passing records. -/
theorem try_fuzzy_match_some (sim : String → String → ℚ) (e : Player)
    (refs : List Player) (lt ft : ℚ) {r : MatchResult}
    (h : try_fuzzy_match sim e refs lt ft = some r) :
    ∃ i, ∃ hi : i < refs.length,
      (lt ≤ sim (normalize_key e.last_name)
          (normalize_key (refs.get ⟨i, hi⟩).last_name)
       ∧ ft ≤ sim (normalize_key e.first_name)
          (normalize_key (refs.get ⟨i, hi⟩).first_name))
      ∧ r = mk_candidate_result sim e (refs.get ⟨i, hi⟩) "FUZZY"
          (sim (normalize_key e.last_name)
            (normalize_key (refs.get ⟨i, hi⟩).last_name))
          (sim (normalize_key e.first_name)
            (normalize_key (refs.get ⟨i, hi⟩).first_name))
      ∧ (∀ j, ∀ hj : j < refs.length,
          lt ≤ sim (normalize_key e.last_name)
            (normalize_key (refs.get ⟨j, hj⟩).last_name) →
          ft ≤ sim (normalize_key e.first_name)
            (normalize_key (refs.get ⟨j, hj⟩).first_name) →
          calculate_confidence e (refs.get ⟨j, hj⟩)
              (sim (normalize_key e.last_name)
                (normalize_key (refs.get ⟨j, hj⟩).last_name))
              (sim (normalize_key e.first_name)
                (normalize_key (refs.get ⟨j, hj⟩).first_name))
            ≤ calculate_confidence e (refs.get ⟨i, hi⟩)
              (sim (normalize_key e.last_name)
                (normalize_key (refs.get ⟨i, hi⟩).last_name))
              (sim (normalize_key e.first_name)
                (normalize_key (refs.get ⟨i, hi⟩).first_name)))
      ∧ (∀ j, ∀ hj : j < refs.length, j < i →
          lt ≤ sim (normalize_key e.last_name)
            (normalize_key (refs.get ⟨j, hj⟩).last_name) →
          ft ≤ sim (normalize_key e.first_name)
            (normalize_key (refs.get ⟨j, hj⟩).first_name) →
          calculate_confidence e (refs.get ⟨j, hj⟩)
              (sim (normalize_key e.last_name)
                (normalize_key (refs.get ⟨j, hj⟩).last_name))
              (sim (normalize_key e.first_name)
                (normalize_key (refs.get ⟨j, hj⟩).first_name))
            < calculate_confidence e (refs.get ⟨i, hi⟩)
              (sim (normalize_key e.last_name)
                (normalize_key (refs.get ⟨i, hi⟩).last_name))
              (sim (normalize_key e.first_name)
                (normalize_key (refs.get ⟨i, hi⟩).first_name))) := by
  unfold try_fuzzy_match at h
  rw [try_fuzzy_loop_eq_best_scan] at h
  rcases best_scan_spec _ _ _ refs none (-1.0) with
    ⟨heq, -⟩ | ⟨i, hi, hki, heq, -, hmax, hfirst⟩
  · rw [heq] at h
    exact absurd h (by simp)
  · rw [heq] at h
    rw [decide_eq_true_eq] at hki
    refine ⟨i, hi, hki, (Option.some_injective _ h).symm, ?_, ?_⟩
    · intro j hj h1 h2
      exact hmax j hj (by rw [decide_eq_true_eq]; exact ⟨h1, h2⟩)
    · intro j hj hji h1 h2
      exact hfirst j hj hji (by rw [decide_eq_true_eq]; exact ⟨h1, h2⟩)

/-- If every reference record fails at least one threshold, the fuzzy stage
returns `None`. -/
theorem try_fuzzy_match_none (sim : String → String → ℚ) (e : Player)
    (refs : List Player) (lt ft : ℚ)
    (h : ∀ ref ∈ refs,
      sim (normalize_key e.last_name) (normalize_key ref.last_name) < lt
      ∨ sim (normalize_key e.first_name) (normalize_key ref.first_name) < ft) :
    try_fuzzy_match sim e refs lt ft = none := by
  unfold try_fuzzy_match
  rw [try_fuzzy_loop_eq_best_scan]
  rcases best_scan_spec _ _ _ refs none (-1.0) with
    ⟨heq, -⟩ | ⟨i, hi, hki, -, -, -, -⟩
  · rw [heq]
  · exfalso
    rw [decide_eq_true_eq] at hki
    rcases h _ (List.get_mem refs i hi) with hbad | hbad
    · exact absurd hki.1 (not_le.mpr hbad)
    · exact absurd hki.2 (not_le.mpr hbad)

/-- If the similarity primitive is nonnegative and some reference record
passes both thresholds, the fuzzy stage finds a match. -/
theorem try_fuzzy_match_isSome (sim : String → String → ℚ) (e : Player)
    (refs : List Player) (lt ft : ℚ)
    (hsim : ∀ a b, 0 ≤ sim a b)
    (href : ∃ ref ∈ refs,
      lt ≤ sim (normalize_key e.last_name) (normalize_key ref.last_name)
      ∧ ft ≤ sim (normalize_key e.first_name) (normalize_key ref.first_name)) :
    ∃ r, try_fuzzy_match sim e refs lt ft = some r := by
  unfold try_fuzzy_match
  rw [try_fuzzy_loop_eq_best_scan]
  rcases best_scan_spec
      (fun x => calculate_confidence e x
        (sim (normalize_key e.last_name) (normalize_key x.last_name))
        (sim (normalize_key e.first_name) (normalize_key x.first_name)))
      (fun x => decide (lt ≤ sim (normalize_key e.last_name)
          (normalize_key x.last_name)
        ∧ ft ≤ sim (normalize_key e.first_name) (normalize_key x.first_name)))
      (fun x => mk_candidate_result sim e x "FUZZY"
        (sim (normalize_key e.last_name) (normalize_key x.last_name))
        (sim (normalize_key e.first_name) (normalize_key x.first_name)))
      refs none (-1.0) with
    ⟨-, hall⟩ | ⟨i, hi, -, heq, -, -⟩
  · exfalso
    obtain ⟨ref, hmem, h1, h2⟩ := href
    have hle := hall ref hmem (by rw [decide_eq_true_eq]; exact ⟨h1, h2⟩)
    have h0 : 0 ≤ calculate_confidence e ref
        (sim (normalize_key e.last_name) (normalize_key ref.last_name))
        (sim (normalize_key e.first_name) (normalize_key ref.first_name)) :=
      calculate_confidence_nonneg e ref (hsim _ _) (hsim _ _)
    linarith [hle, h0]
  · exact ⟨_, by rw [heq]⟩

/-! ## Claim C4 -/

/-- C4: in every candidate-scoring stage (exact/name-swap via
`_pick_best_candidate`, fuzzy via `_try_fuzzy_match`), the selected candidate
attains the maximum confidence among the scored candidates, and every
earlier scored candidate has strictly smaller confidence (so ties go to the
earliest reference-file entry and the result is deterministic). -/
theorem claim_C4_first_strict_max_wins (sim : String → String → ℚ)
    (e : Player) (cands refs : List Player) (mt : String) (ls fs lt ft : ℚ) :
    (∀ r : MatchResult, pick_best_candidate sim e cands mt ls fs = some r →
      ∃ i, ∃ hi : i < cands.length,
        r.ref_player = some (cands.get ⟨i, hi⟩)
        ∧ r.confidence = calculate_confidence e (cands.get ⟨i, hi⟩)
            (if mt == "NAME_SWAP" then 1.0 else ls)
            (if mt == "NAME_SWAP" then 1.0 else fs)
        ∧ (∀ j, ∀ hj : j < cands.length,
            calculate_confidence e (cands.get ⟨j, hj⟩)
                (if mt == "NAME_SWAP" then 1.0 else ls)
                (if mt == "NAME_SWAP" then 1.0 else fs) ≤ r.confidence)
        ∧ (∀ j, ∀ hj : j < cands.length, j < i →
            calculate_confidence e (cands.get ⟨j, hj⟩)
                (if mt == "NAME_SWAP" then 1.0 else ls)
                (if mt == "NAME_SWAP" then 1.0 else fs) < r.confidence))
    ∧ (∀ r : MatchResult, try_fuzzy_match sim e refs lt ft = some r →
      ∃ i, ∃ hi : i < refs.length,
        r.ref_player = some (refs.get ⟨i, hi⟩)
        ∧ r.confidence = calculate_confidence e (refs.get ⟨i, hi⟩)
            (sim (normalize_key e.last_name)
              (normalize_key (refs.get ⟨i, hi⟩).last_name))
            (sim (normalize_key e.first_name)
              (normalize_key (refs.get ⟨i, hi⟩).first_name))
        ∧ (∀ j, ∀ hj : j < refs.length,
            lt ≤ sim (normalize_key e.last_name)
              (normalize_key (refs.get ⟨j, hj⟩).last_name) →
            ft ≤ sim (normalize_key e.first_name)
              (normalize_key (refs.get ⟨j, hj⟩).first_name) →
            calculate_confidence e (refs.get ⟨j, hj⟩)
                (sim (normalize_key e.last_name)
                  (normalize_key (refs.get ⟨j, hj⟩).last_name))
                (sim (normalize_key e.first_name)
                  (normalize_key (refs.get ⟨j, hj⟩).first_name))
              ≤ r.confidence)
        ∧ (∀ j, ∀ hj : j < refs.length, j < i →
            lt ≤ sim (normalize_key e.last_name)
              (normalize_key (refs.get ⟨j, hj⟩).last_name) →
            ft ≤ sim (normalize_key e.first_name)
              (normalize_key (refs.get ⟨j, hj⟩).first_name) →
            calculate_confidence e (refs.get ⟨j, hj⟩)
                (sim (normalize_key e.last_name)
                  (normalize_key (refs.get ⟨j, hj⟩).last_name))
                (sim (normalize_key e.first_name)
                  (normalize_key (refs.get ⟨j, hj⟩).first_name))
              < r.confidence)) := by
  constructor
  · intro r h
    obtain ⟨i, hi, hrq, hmax, hfirst⟩ := pick_best_candidate_some sim e cands mt ls fs h
    refine ⟨i, hi, ?_, ?_, ?_, ?_⟩
    · rw [hrq]
      rfl
    · rw [hrq]
      rfl
    · intro j hj
      rw [hrq]
      exact hmax j hj
    · intro j hj hji
      rw [hrq]
      exact hfirst j hj hji
  · intro r h
    obtain ⟨i, hi, -, hrq, hmax, hfirst⟩ := try_fuzzy_match_some sim e refs lt ft h
    refine ⟨i, hi, ?_, ?_, ?_, ?_⟩
    · rw [hrq]
      rfl
    · rw [hrq]
      rfl
    · intro j hj h1 h2
      rw [hrq]
      exact hmax j hj h1 h2
    · intro j hj hji h1 h2
      rw [hrq]
      exact hfirst j hj hji h1 h2

/-! ## Claim C5 -/

/-- C5: in the fuzzy stage a reference record is retained iff its last-name
similarity reaches the (configurable) last-name threshold AND its first-name
similarity reaches the first-name threshold: every returned match comes from
a record passing both thresholds; if every record fails one of them the
fuzzy stage returns `None`; if some record passes both (and the similarity
primitive is nonnegative, as Jaro-Winkler is) a match is returned; and when
additionally stages 1–2 found nothing, the event's result is the NONE
result. -/
theorem claim_C5_fuzzy_thresholds (sim : String → String → ℚ) (e : Player)
    (refs : List Player) (lt ft : ℚ) :
    (∀ r : MatchResult, try_fuzzy_match sim e refs lt ft = some r →
      ∃ ref ∈ refs, r.ref_player = some ref
        ∧ lt ≤ sim (normalize_key e.last_name) (normalize_key ref.last_name)
        ∧ ft ≤ sim (normalize_key e.first_name) (normalize_key ref.first_name))
    ∧ ((∀ ref ∈ refs,
          sim (normalize_key e.last_name) (normalize_key ref.last_name) < lt
          ∨ sim (normalize_key e.first_name) (normalize_key ref.first_name) < ft) →
        try_fuzzy_match sim e refs lt ft = none)
    ∧ ((∀ a b, 0 ≤ sim a b) →
        (∃ ref ∈ refs,
          lt ≤ sim (normalize_key e.last_name) (normalize_key ref.last_name)
          ∧ ft ≤ sim (normalize_key e.first_name) (normalize_key ref.first_name)) →
        ∃ r, try_fuzzy_match sim e refs lt ft = some r)
    ∧ (build_name_index refs (nameKey e) = [] →
        build_swap_index refs (nameKey e) = [] →
        (∀ ref ∈ refs,
          sim (normalize_key e.last_name) (normalize_key ref.last_name) < lt
          ∨ sim (normalize_key e.first_name) (normalize_key ref.first_name) < ft) →
        resolve_event sim refs lt ft e = some (no_match_result e)) := by
  refine ⟨?_, try_fuzzy_match_none sim e refs lt ft,
    try_fuzzy_match_isSome sim e refs lt ft, ?_⟩
  · intro r h
    obtain ⟨i, hi, ⟨h1, h2⟩, hrq, -, -⟩ := try_fuzzy_match_some sim e refs lt ft h
    exact ⟨refs.get ⟨i, hi⟩, List.get_mem refs i hi, by rw [hrq]; rfl, h1, h2⟩
  · intro hni hsi hall
    have hf := try_fuzzy_match_none sim e refs lt ft hall
    simp only [resolve_event, hni, hsi, hf, ne_eq, not_true_eq_false, if_false]

/-! ## Claim C10 -/

/-- C10: with a nonempty candidate list and similarities in [0,1], the
`assert best_result is not None` in `_pick_best_candidate` never fails — the
first candidate's confidence is at least 0 and strictly beats the initial
best confidence of −1.0 — and the returned result carries a reference
record. -/
theorem claim_C10_assert_never_fails (sim : String → String → ℚ)
    (e : Player) (cands : List Player) (mt : String) (ls fs : ℚ)
    (hne : cands ≠ []) (h0 : 0 ≤ ls) (h1 : ls ≤ 1) (h2 : 0 ≤ fs)
    (h3 : fs ≤ 1) :
    ∃ r, pick_best_candidate sim e cands mt ls fs = some r
      ∧ r.ref_player ≠ none := by
  obtain ⟨r, hr⟩ := pick_best_candidate_isSome sim e cands mt ls fs hne h0 h2
  obtain ⟨i, hi, hrq, -, -⟩ := pick_best_candidate_some sim e cands mt ls fs hr
  refine ⟨r, hr, ?_⟩
  rw [hrq]
  simp [mk_candidate_result]

/-- C10 (witness): the theorem applied at a concrete input. -/
theorem claim_C10_witness :
    ∃ r, pick_best_candidate simZero samplePlayer [otherPlayer] "EXACT" 1 1
        = some r ∧ r.ref_player ≠ none :=
  claim_C10_assert_never_fails simZero samplePlayer [otherPlayer] "EXACT" 1 1
    (by simp) (by norm_num) (by norm_num) (by norm_num) (by norm_num)

/-! ## The resolver and `match_players` -/

/-- `"NO_MATCH"` is never produced by `detect_issues`. -/
theorem no_match_not_in_detect_issues (e r : Player) (mt : String)
    (ls fs : ℚ) : "NO_MATCH" ∉ detect_issues e r mt ls fs := by
  cases hs : is_dob_mob_swapped e r <;>
    simp [detect_issues, hs, mem_cond_singleton]

/-- The four-stage resolver is total and preserves the event record. -/
theorem resolve_event_total (sim : String → String → ℚ)
    (refs : List Player) (lt ft : ℚ) (e : Player) :
    ∃ r, resolve_event sim refs lt ft e = some r ∧ r.event_player = e := by
  simp only [resolve_event]
  by_cases h1 : build_name_index refs (nameKey e) ≠ []
  · obtain ⟨r, hr⟩ := pick_best_candidate_isSome sim e _ "EXACT" 1.0 1.0 h1
      (by norm_num) (by norm_num)
    obtain ⟨i, hi, hrq, -, -⟩ := pick_best_candidate_some sim e _ "EXACT"
      1.0 1.0 hr
    refine ⟨r, ?_, by rw [hrq]; rfl⟩
    rw [if_pos h1]
    exact hr
  · rw [if_neg h1]
    by_cases h2 : build_swap_index refs (nameKey e) ≠ []
    · obtain ⟨r, hr⟩ := pick_best_candidate_isSome sim e _ "NAME_SWAP" 1.0 1.0
        h2 (by norm_num) (by norm_num)
      obtain ⟨i, hi, hrq, -, -⟩ := pick_best_candidate_some sim e _ "NAME_SWAP"
        1.0 1.0 hr
      refine ⟨r, ?_, by rw [hrq]; rfl⟩
      rw [if_pos h2]
      exact hr
    · rw [if_neg h2]
      cases hf : try_fuzzy_match sim e refs lt ft with
      | some r =>
        obtain ⟨i, hi, -, hrq, -, -⟩ := try_fuzzy_match_some sim e refs lt ft hf
        exact ⟨r, rfl, by rw [hrq]; rfl⟩
      | none => exact ⟨no_match_result e, rfl, rfl⟩

/-- Every result produced by the resolver is either the NONE result or a
candidate result built for one of the three positive match types. -/
theorem resolve_event_cases (sim : String → String → ℚ)
    (refs : List Player) (lt ft : ℚ) (e : Player) {r : MatchResult}
    (h : resolve_event sim refs lt ft e = some r) :
    r = no_match_result e
    ∨ ∃ ref : Player, ∃ mt : String, ∃ ln fn : ℚ,
        r = mk_candidate_result sim e ref mt ln fn
        ∧ (mt = "EXACT" ∨ mt = "NAME_SWAP" ∨ mt = "FUZZY") := by
  simp only [resolve_event] at h
  by_cases h1 : build_name_index refs (nameKey e) ≠ []
  · rw [if_pos h1] at h
    obtain ⟨i, hi, hrq, -, -⟩ := pick_best_candidate_some sim e _ "EXACT"
      1.0 1.0 h
    exact Or.inr ⟨_, _, _, _, hrq, Or.inl rfl⟩
  · rw [if_neg h1] at h
    by_cases h2 : build_swap_index refs (nameKey e) ≠ []
    · rw [if_pos h2] at h
      obtain ⟨i, hi, hrq, -, -⟩ := pick_best_candidate_some sim e _ "NAME_SWAP"
        1.0 1.0 h
      exact Or.inr ⟨_, _, _, _, hrq, Or.inr (Or.inl rfl)⟩
    · rw [if_neg h2] at h
      cases hf : try_fuzzy_match sim e refs lt ft with
      | some r0 =>
        rw [hf] at h
        obtain ⟨i, hi, -, hrq, -, -⟩ := try_fuzzy_match_some sim e refs lt ft hf
        have : r = r0 := by simpa using h.symm
        exact Or.inr ⟨_, _, _, _, this ▸ hrq, Or.inr (Or.inr rfl)⟩
      | none =>
        rw [hf] at h
        exact Or.inl (by simpa using h.symm)

/-- `match_players` maps each event through the total resolver: it returns
`some`, with one result per event in input order. -/
theorem match_players_total (sim : String → String → ℚ)
    (refs events : List Player) (thr : ℚ) :
    ∃ rs, match_players sim refs events thr = some rs
      ∧ rs.length = events.length
      ∧ ∀ i, ∀ hi : i < rs.length, ∀ hi' : i < events.length,
          (rs.get ⟨i, hi⟩).event_player = events.get ⟨i, hi'⟩ := by
  unfold match_players
  induction events with
  | nil =>
    refine ⟨[], rfl, rfl, ?_⟩
    intro i hi hi'
    simp at hi
  | cons a t ih =>
    obtain ⟨rs, hrs, hlen, hget⟩ := ih
    obtain ⟨r, hr, hre⟩ :=
      resolve_event_total sim refs thr DEFAULT_FIRSTNAME_THRESHOLD a
    refine ⟨r :: rs, ?_, by simp [hlen], ?_⟩
    · rw [List.mapM_cons, hr, hrs]
      rfl
    · intro i hi hi'
      cases i with
      | zero => exact hre
      | succ i =>
        exact hget i (by simpa using hi) (by simpa using hi')

/-- Every member of a `match_players` output comes from the resolver applied
to one of the events. -/
theorem match_players_mem (sim : String → String → ℚ)
    (refs : List Player) (thr : ℚ) :
    ∀ (events : List Player) (rs : List MatchResult),
      match_players sim refs events thr = some rs →
      ∀ r ∈ rs, ∃ e ∈ events,
        resolve_event sim refs thr DEFAULT_FIRSTNAME_THRESHOLD e = some r := by
  intro events
  unfold match_players
  induction events with
  | nil =>
    intro rs hrs r hr
    have hnil : rs = [] := by
      rw [List.mapM_nil] at hrs
      simpa using hrs.symm
    subst hnil
    simp at hr
  | cons a t ih =>
    intro rs hrs r hr
    rw [List.mapM_cons] at hrs
    cases ha : resolve_event sim refs thr DEFAULT_FIRSTNAME_THRESHOLD a with
    | none => rw [ha] at hrs; simp at hrs
    | some r0 =>
      rw [ha] at hrs
      cases ht : List.mapM
          (resolve_event sim refs thr DEFAULT_FIRSTNAME_THRESHOLD) t with
      | none => rw [ht] at hrs; simp at hrs
      | some ts =>
        rw [ht] at hrs
        have hcons : rs = r0 :: ts := by simpa using hrs.symm
        subst hcons
        rcases List.mem_cons.mp hr with rfl | hmem
        · exact ⟨a, List.mem_cons_self a t, ha⟩
        · obtain ⟨e, he, hres⟩ := ih ts ht r hmem
          exact ⟨e, List.mem_cons_of_mem a he, hres⟩

/-! ## Claim C2 -/

/-- C2: for every reference list and event list, `match_players` raises no
exception (the resolver is total, so the result is `some`) and returns
exactly one result per event record, in input order. -/
theorem claim_C2_one_result_per_event (sim : String → String → ℚ)
    (refs events : List Player) (thr : ℚ) :
    ∃ rs, match_players sim refs events thr = some rs
      ∧ rs.length = events.length
      ∧ ∀ i, ∀ hi : i < rs.length, ∀ hi' : i < events.length,
          (rs.get ⟨i, hi⟩).event_player = events.get ⟨i, hi'⟩ :=
  match_players_total sim refs events thr

/-! ## Claim C3 -/

/-- C3: in every `match_players` output, a result has match type NONE iff it
has no reference record iff its issue list is exactly `["NO_MATCH"]`, and a
NONE result has confidence 0.0 and tolerant confidence 0.0. -/
theorem claim_C3_none_characterization (sim : String → String → ℚ)
    (refs events : List Player) (thr : ℚ) (rs : List MatchResult)
    (hrs : match_players sim refs events thr = some rs)
    (r : MatchResult) (hr : r ∈ rs) :
    (r.match_type = "NONE" ↔ r.ref_player = none)
    ∧ (r.match_type = "NONE" ↔ r.issues = ["NO_MATCH"])
    ∧ (r.match_type = "NONE" → r.confidence = 0 ∧ r.confidence_tolerant = 0) := by
  obtain ⟨e, -, hres⟩ := match_players_mem sim refs thr events rs hrs r hr
  rcases resolve_event_cases sim refs thr DEFAULT_FIRSTNAME_THRESHOLD e hres with
    hnone | ⟨ref, mt, ln, fn, hrq, hmt⟩
  · subst hnone
    refine ⟨by simp [no_match_result], by simp [no_match_result], ?_⟩
    intro _
    constructor <;> norm_num [no_match_result]
  · subst hrq
    have hne : mt ≠ "NONE" := by
      rcases hmt with rfl | rfl | rfl <;> decide
    have hiss : detect_issues e ref mt ln fn ≠ ["NO_MATCH"] := by
      intro hEq
      exact no_match_not_in_detect_issues e ref mt ln fn
        (hEq ▸ List.mem_singleton_self "NO_MATCH")
    refine ⟨?_, ?_, ?_⟩
    · simp [mk_candidate_result, hne]
    · simp [mk_candidate_result, hne, hiss]
    · intro hmtEq
      exact absurd hmtEq (by simp [mk_candidate_result, hne])

/-- C3 (witness): the theorem applied at a concrete input (empty reference
list, one event). -/
theorem claim_C3_witness :
    ((no_match_result samplePlayer).match_type = "NONE"
      ↔ (no_match_result samplePlayer).ref_player = none)
    ∧ ((no_match_result samplePlayer).match_type = "NONE"
      ↔ (no_match_result samplePlayer).issues = ["NO_MATCH"])
    ∧ ((no_match_result samplePlayer).match_type = "NONE" →
        (no_match_result samplePlayer).confidence = 0
        ∧ (no_match_result samplePlayer).confidence_tolerant = 0) :=
  claim_C3_none_characterization simZero [] [samplePlayer] 0.85
    [no_match_result samplePlayer] rfl (no_match_result samplePlayer)
    (List.mem_singleton_self _)

/-- C6 (witness): the amended theorem applied at a concrete input. -/
theorem claim_C6_witness :
    calculate_confidence samplePlayer samplePlayer 1 1 = 1 ↔
      ((samplePlayer.dob = samplePlayer.dob
          ∨ is_dob_mob_swapped samplePlayer samplePlayer = true)
       ∧ (samplePlayer.mob = samplePlayer.mob
          ∨ is_dob_mob_swapped samplePlayer samplePlayer = true)
       ∧ samplePlayer.yob = samplePlayer.yob
       ∧ pyUpper samplePlayer.sex = pyUpper samplePlayer.sex
       ∧ pyUpper samplePlayer.association = pyUpper samplePlayer.association
       ∧ (10999 : ℚ)/20000 ≤ 3/10 * 1 + 1/4 * 1) :=
  claim_C6_amended samplePlayer samplePlayer 1 1
    (by norm_num) (by norm_num) (by norm_num) (by norm_num)

end TTMatcher
